import Mathlib

/-!
Verification of `tools/maint/gen_sig_info.py` (emscripten signature-inference
tool) against its natural-language specification.

Strings from the Python source are modelled as `List Char` (named `Str` below)
so that all operations are executable and kernel-decidable.  The single-quote
character is written `qc` (`Char.ofNat 39`) throughout.
-/

namespace GenSig

/-- Character strings, modelled as lists of characters. -/
abbrev Str := List Char

/-- The single-quote character used by the `__sig` annotation syntax. -/
def qc : Char := Char.ofNat 39

/-- Python `str.strip` whitespace (ASCII): space, tab, newline, carriage
return, vertical tab, form feed. -/
def isWsChar (c : Char) : Bool :=
  c = ' ' || c = Char.ofNat 9 || c = Char.ofNat 10 || c = Char.ofNat 13 ||
  c = Char.ofNat 11 || c = Char.ofNat 12

/-- Python regex word character (`\w` / `\b` classification, ASCII). -/
def isWordChar (c : Char) : Bool :=
  c.isAlpha || c.isDigit || c = '_'

/-- Python `str.startswith` on character lists (also the one list-prefix
test used by the whole model; written as a plain recursion so that it
evaluates definitionally). -/
def strStarts : Str → Str → Bool
  | [], _ => true
  | _ :: _, [] => false
  | a :: as, b :: bs => (a == b) && strStarts as bs

/-- Python `str.endswith` on character lists. -/
def strEnds (x s : Str) : Bool := strStarts x.reverse s.reverse

/-- Drop trailing whitespace. -/
def dropTrail (l : Str) : Str := (l.reverse.dropWhile isWsChar).reverse

/-- Python `str.strip()`: drop leading and trailing whitespace. -/
def pyStrip (l : Str) : Str := dropTrail (l.dropWhile isWsChar)

/-- Python substring containment (`needle in l`). -/
def occursIn (needle : Str) : Str → Bool
  | [] => needle.isEmpty
  | c :: cs => strStarts needle (c :: cs) || occursIn needle cs

/-- The string contains no single-quote character. -/
abbrev noQuote (l : Str) : Prop := ∀ c ∈ l, c ≠ qc

/-- Split off everything after the last single quote: returns
`some (before, after)` with the input equal to `before ++ [qc] ++ after`
and `after` quote-free; `none` when the input has no quote.  This is how the
greedy regex `.*'` selects its closing quote. -/
def splitLastQuote : Str → Option (Str × Str)
  | [] => none
  | c :: cs =>
    match splitLastQuote cs with
    | some (m, t) => some (c :: m, t)
    | none => if c = qc then some ([], cs) else none

/-- Python regex `\b` at a match position: word-ness of the previous
character (none at string start, counted non-word) differs from word-ness of
the next character. -/
def boundaryOk (prev : Option Char) (c : Char) : Bool :=
  (match prev with
   | none => false
   | some p => isWordChar p) != isWordChar c

/-- One pass of `re.sub(rf"\b{sym}__sig: '.*'", f"{sym}__sig: '{sig}'", l)`
for a literal (metacharacter-free) `sym`: scan left to right for the first
position with a word boundary where `pat` (= `sym__sig: '`) occurs; the
greedy `.*'` then extends the match to the last single quote on the line,
and the whole match is replaced by `repl` (= `sym__sig: 'sig'`).  If the
opening quote has no quote after it the position fails and scanning
continues (as the regex engine does). -/
def subSig (pat repl : Str) : Option Char → Str → Str
  | _, [] => []
  | prev, c :: cs =>
    if boundaryOk prev c && strStarts pat (c :: cs) then
      match splitLastQuote ((c :: cs).drop pat.length) with
      | some (_, t) => repl ++ t
      | none => c :: subSig pat repl (some c) cs
    else c :: subSig pat repl (some c) cs

/-- The substring tested by `if '__sig' not in l`. -/
def usMarker : Str := "__sig".toList

/-- The per-symbol annotation key prefix `sym__sig:`. -/
def sigMarker : Str := "__sig:".toList

/-- The literal regex head `sym__sig: '` (key prefix, space, opening quote). -/
def sigPat (sym : Str) : Str := sym ++ sigMarker ++ [' ', qc]

/-- A signature mapping, in Python dict insertion order. -/
abbrev SigInfo := List (Str × Str)

/-- The first `(sym, sig)` entry whose `sym__sig:` is a prefix of the
stripped line — the `for sym, sig in sig_info.items()` loop of
`update_sigs.update_line`. -/
def firstMatch (m : SigInfo) (stripped : Str) : Option (Str × Str) :=
  match m with
  | [] => none
  | (sym, sig) :: rest =>
    if strStarts (sym ++ sigMarker) stripped then some (sym, sig)
    else firstMatch rest stripped

/-- `update_line` from `update_sigs`: skip lines without `__sig`; otherwise
the first mapped symbol whose `sym__sig:` starts the stripped line triggers
the regex substitution on the raw line. -/
def update_line (m : SigInfo) (l : Str) : Str :=
  if occursIn usMarker l then
    match firstMatch m (pyStrip l) with
    | some (sym, sig) => subSig (sigPat sym) (sigPat sym ++ sig ++ [qc]) none l
    | none => l
  else l

/-- `strip_line` from `remove_sigs`: the stripped line starts with
`sym__sig:` for some mapped symbol. -/
def stripLineHit (m : SigInfo) (l : Str) : Bool :=
  m.any (fun p => strStarts (p.1 ++ sigMarker) (pyStrip l))

/-- The per-file body of `remove_sigs`: delete every line hit by
`strip_line`. -/
def removeLines (m : SigInfo) (content : List Str) : List Str :=
  content.filter (fun l => !stripLineHit m l)

/-- A source file: path components plus content as a list of lines
(the Synchronizer is line-oriented: files are read, split into lines,
transformed per line, and rejoined). -/
structure SrcFile where
  path : List Str
  content : List Str
deriving DecidableEq

/-- A glob `*` component does not match names starting with a dot. -/
def notHidden (n : Str) : Bool :=
  match n with
  | [] => true
  | c :: _ => c ≠ '.'

/-- A name matched by the glob component `*.js`. -/
def jsName (n : Str) : Bool := notHidden n && strEnds ".js".toList n

/-- The file set of `glob.glob('src/*.js') + glob.glob('src/**/*.js')`:
without `recursive=True`, `**` matches like `*` (exactly one directory
level), so only depth-1 and depth-2 paths under `src` are selected. -/
def matchesGlob (p : List Str) : Bool :=
  match p with
  | [d, n] => d == "src".toList && jsName n
  | [d, m, n] => d == "src".toList && notHidden m && jsName n
  | _ => false

/-- Basename of a path (its last component). -/
def pathBase (p : List Str) : Str := p.getLast?.getD []

/-- The consolidated declarations file name excluded by `remove_sigs`. -/
def libsigsName : Str := "libsigs.js".toList

/-- `update_sigs` over a file system: every globbed file has each of its
lines rewritten by `update_line`; all other files are untouched. -/
def update_sigs (m : SigInfo) (fs : List SrcFile) : List SrcFile :=
  fs.map (fun f =>
    if matchesGlob f.path then ⟨f.path, f.content.map (update_line m)⟩ else f)

/-- `remove_sigs` over a file system: every globbed file except
`libsigs.js` has its hit lines deleted; all other files are untouched. -/
def remove_sigs (m : SigInfo) (fs : List SrcFile) : List SrcFile :=
  fs.map (fun f =>
    if matchesGlob f.path && pathBase f.path != libsigsName then
      ⟨f.path, removeLines m f.content⟩
    else f)

/-- WebAssembly value types as used by the tool (`webassembly.Type`). -/
inductive ValueType
  | i32
  | i64
  | f32
  | f64
deriving DecidableEq, Fintype

/-- The fixed value-type tag dictionary of `valuetype_to_chr`. -/
def vtChr : ValueType → Char
  | .i32 => 'i'
  | .i64 => 'j'
  | .f32 => 'f'
  | .f64 => 'd'

/-- `valuetype_to_chr(t, t64)`: the pointer pattern (narrow I32 / wide I64)
gives `p`; otherwise the two types must be equal (`assert t == t64`, `none`
models the assertion failure) and the tag comes from the fixed dictionary. -/
def valuetype_to_chr (t t64 : ValueType) : Option Char :=
  if t = .i32 ∧ t64 = .i64 then some 'p'
  else if t = t64 then some (vtChr t)
  else none

/-- A function type from the binary type section: ordered parameter types
and return types. -/
structure FunctionType where
  params : List ValueType
  returns : List ValueType
deriving DecidableEq

/-- The `for p, p64 in zip(t.params, t64.params)` loop: per-slot tags, in
order; `zip` stops at the shorter list; a slot failure (assertion in
`valuetype_to_chr`) aborts. -/
def paramTags : List ValueType → List ValueType → Option Str
  | [], _ => some []
  | _ :: _, [] => some []
  | p :: ps, p64 :: ps64 =>
    match valuetype_to_chr p p64, paramTags ps ps64 with
    | some c, some cs => some (c :: cs)
    | _, _ => none

/-- The return-slot tag of `functype_to_str`: no return value gives `v`,
a single return value is reconciled per slot, more than one fails the
`assert len(t.returns) == 1`. -/
def returnTag : List ValueType → List ValueType → Option Char
  | [], _ => some 'v'
  | [r], [r64] => valuetype_to_chr r r64
  | _, _ => none

/-- `functype_to_str(t, t64)`: assert equal return and parameter counts,
then concatenate the return tag with the parameter tags.  `none` models a
failed assertion. -/
def functype_to_str (t t64 : FunctionType) : Option Str :=
  if t.returns.length = t64.returns.length ∧ t.params.length = t64.params.length then
    match returnTag t.returns t64.returns, paramTags t.params t64.params with
    | some rc, some ps => some (rc :: ps)
    | _, _ => none
  else none

/-- Python dict assignment `d[k] = v` on an insertion-ordered association
list: overwrite in place if the key exists, else append. -/
def dictSet (m : SigInfo) (k v : Str) : SigInfo :=
  match m with
  | [] => [(k, v)]
  | (k0, v0) :: rest =>
    if k0 = k then (k0, v) :: rest else (k0, v0) :: dictSet rest k v

/-- Python dict lookup: value of the first (unique) matching key. -/
def dictGet (m : SigInfo) (k : Str) : Option Str :=
  match m with
  | [] => none
  | (k0, v0) :: rest => if k0 = k then some v0 else dictGet rest k

/-- The per-symbol merge step of `extract_sig_info` (lines 364-373): if the
symbol is already present with a different signature string, print the
symbol and both signatures and abort (`assert sig_info[sym] == sig_string`);
the error payload carries exactly what is printed.  Otherwise store the
signature. -/
def mergeSym (acc : SigInfo) (sym sigstr : Str) :
    Except (Str × Str × Str) SigInfo :=
  match dictGet acc sym with
  | some old =>
    if old = sigstr then Except.ok (dictSet acc sym sigstr)
    else Except.error (sym, sigstr, old)
  | none => Except.ok (dictSet acc sym sigstr)

/-- The fixed reserved-name exclusion set of `ignore_symbol`. -/
def reservedNames : List Str :=
  ["__stack_base", "__memory_base", "__table_base", "__global_base",
   "__heap_base", "__stack_pointer", "__stack_high", "__stack_low",
   "_load_secondary_module", "__asyncify_state", "__asyncify_data",
   "stackSave", "stackRestore", "stackAlloc", "getTempRet0",
   "setTempRet0"].map String.toList

/-- The recognized GL extension suffixes of `ignore_symbol`. -/
def glSuffixes : List Str :=
  ["NV", "EXT", "WEBGL", "ARB", "ANGLE"].map String.toList

/-- `ignore_symbol(s, cxx)`, rule for rule in source order.  The final line
of the source is `cxx and s == '__asctime_r' or s.startswith('__cxa_find_matching_catch')`,
in which Python binds `and` tighter than `or`. -/
def ignore_symbol (s : Str) (cxx : Bool) : Bool :=
  if strStarts "$".toList s then true
  else if s == "SDL_GetKeyState".toList then true
  else if strStarts "emscripten_gl".toList s || strStarts "emscripten_alc".toList s then true
  else if strStarts "gl".toList s && glSuffixes.any (fun x => strEnds x s) then true
  else if reservedNames.contains s then true
  else (cxx && s == "__asctime_r".toList) || strStarts "__cxa_find_matching_catch".toList s

/-- The fixed WASI symbol set. -/
def wasi_symbols : List Str :=
  ["proc_exit", "environ_sizes_get", "environ_get", "clock_time_get",
   "clock_res_get", "fd_write", "fd_pwrite", "fd_read", "fd_pread",
   "fd_close", "fd_seek", "fd_sync", "fd_fdstat_get", "args_get",
   "args_sizes_get", "random_get"].map String.toList

/-- One emitted symbol-list entry of `create_c_file`: WASI symbols are
referenced through their `__wasi_`-prefixed declaration, all others by their
own name. -/
def symbolEntryLine (s : Str) : Str :=
  if wasi_symbols.contains s then
    "  (void*)&__wasi_".toList ++ s ++ [',']
  else
    "  (void*)&".toList ++ s ++ [',']

/-- The `\nvoid* symbol_list[] = {` line (brace written by code). -/
def arrayOpenLine : Str :=
  Char.ofNat 10 :: "void* symbol_list[] = ".toList ++ [Char.ofNat 123]

/-- The fixed `footer` text of the generated stub unit. -/
def footerText : Str :=
  [Char.ofNat 125] ++ ";".toList ++ [Char.ofNat 10, Char.ofNat 10] ++
  "int main(int argc, char* argv[]) ".toList ++ [Char.ofNat 123, Char.ofNat 10] ++
  "  return argc + (intptr_t)symbol_list;".toList ++ [Char.ofNat 10] ++
  [Char.ofNat 125] ++ [Char.ofNat 10]

/-- `create_c_file`: start from the header and the array opener, append one
entry per symbol in input order, close with the footer.  Modelled as the
list of emitted chunks (the source joins them with newlines). -/
def create_c_lines (symbol_list : List Str) (header : Str) : List Str :=
  (symbol_list.foldl (fun acc s => acc ++ [symbolEntryLine s])
    [header, arrayOpenLine]) ++ [footerText]

/-- The four-symbol input set of the filter example. -/
def c8Input : List Str :=
  ["__stack_base", "malloc", "emscripten_glClear", "glTexImage2DNV"].map String.toList

/-- A path three levels below the scan root: `src/a/b/c.js`. -/
def c6DeepPath : List Str := ["src", "a", "b", "c.js"].map String.toList

/-- A removable/rewritable annotation line `foo__sig: 'ii',`. -/
def c6Line : Str := "foo__sig: ".toList ++ [qc] ++ "ii".toList ++ [qc, ',']

/-- A mapping containing `foo`. -/
def c6Map : SigInfo := [("foo".toList, ['p'])]

/-- A source tree whose only file sits three levels below the root. -/
def c6Fs : List SrcFile := [⟨c6DeepPath, [c6Line]⟩]

/-- A depth-three file used to witness that deep files are untouched. -/
def c6File2 : SrcFile := ⟨["src", "x", "y", "z.js"].map String.toList, [c6Line]⟩

/-- The single-entry mapping of the Update examples. -/
def c5Map : SigInfo := [("foo".toList, "iij".toList)]

/-- A line whose trailing comment contains an apostrophe:
`  foo__sig: 'ii', // don't edit`. -/
def c5Line : Str :=
  "  foo__sig: ".toList ++ [qc] ++ "ii".toList ++ [qc] ++ ", // don".toList ++
  [qc] ++ "t edit".toList

/-- What the claim predicts for `c5Line`: only the quoted signature changes. -/
def c5SpecOut : Str :=
  "  foo__sig: ".toList ++ [qc] ++ "iij".toList ++ [qc] ++ ", // don".toList ++
  [qc] ++ "t edit".toList

/-- What the code produces for `c5Line`: the greedy `.*'` consumes through
the apostrophe inside the comment. -/
def c5CodeOut : Str :=
  "  foo__sig: ".toList ++ [qc] ++ "iij".toList ++ [qc] ++ "t edit".toList

/-- The spec example line `  foo__sig: 'ii',  // comment`. -/
def c5ExLine : Str :=
  "  foo__sig: ".toList ++ [qc] ++ "ii".toList ++ [qc] ++ ",  // comment".toList

/-- The spec example output `  foo__sig: 'iij',  // comment`. -/
def c5ExOut : Str :=
  "  foo__sig: ".toList ++ [qc] ++ "iij".toList ++ [qc] ++ ",  // comment".toList

/-- An adversarial mapping key containing a quote: `a__sig: 'z`. -/
def c9Key : Str := "a__sig: ".toList ++ [qc, 'z']

/-- An adversarial signature value: `z__sig: 'w`. -/
def c9SigA : Str := "z__sig: ".toList ++ [qc, 'w']

/-- The adversarial mapping (dict order first key then `a`). -/
def c9Map : SigInfo := [(c9Key, ['Q']), (['a'], c9SigA)]

/-- The line `a__sig: 'x'`. -/
def c9Line : Str := "a__sig: ".toList ++ [qc, 'x', qc]

/-- A one-file source tree holding `c9Line` at a globbed path. -/
def c9Fs : List SrcFile := [⟨["src", "a.js"].map String.toList, [c9Line]⟩]

/-- The signature tag alphabet of the data model. -/
def tagChars : Str := ['v', 'i', 'j', 'f', 'd', 'p']

/-- A well-formed mapping (identifier symbol, tag-string value). -/
def c9GoodMap : SigInfo := [("foo".toList, "ip".toList)]

/- ------------------------------------------------------------------ -/
/- Theorems                                                            -/
/- ------------------------------------------------------------------ -/

theorem dictSet_self {acc : SigInfo} {sym s : Str} (h : dictGet acc sym = some s) :
    dictSet acc sym s = acc := by
  induction acc with
  | nil => simp [dictGet] at h
  | cons p rest ih =>
    obtain ⟨k0, v0⟩ := p
    by_cases hk : k0 = sym
    · simp [dictGet, hk] at h
      simp [dictSet, hk, h]
    · simp [dictGet, hk] at h
      simp [dictSet, hk, ih h]

theorem paramTags_length : ∀ (ps ps64 : List ValueType) (cs : Str),
    paramTags ps ps64 = some cs → ps.length = ps64.length → cs.length = ps.length := by
  intro ps
  induction ps with
  | nil => intro ps64 cs h _; simp [paramTags] at h; simp [← h]
  | cons p pr ih =>
    intro ps64 cs h hlen
    cases ps64 with
    | nil => simp at hlen
    | cons p64 pr64 =>
      simp only [paramTags] at h
      cases hv : valuetype_to_chr p p64 with
      | none => rw [hv] at h; simp at h
      | some c =>
        rw [hv] at h
        cases hp : paramTags pr pr64 with
        | none => rw [hp] at h; simp at h
        | some cs0 =>
          rw [hp] at h
          simp at h
          subst h
          simp at hlen
          simp [ih pr64 cs0 hp hlen]

/-- C1: per-slot tag reconciliation — narrow I32 with wide I64 gives `p`;
equal pairs give the fixed mapping i/j/f/d; every other unequal pair fails
the assertion (no tag). -/
theorem C1_valuetype_tags :
    valuetype_to_chr .i32 .i64 = some 'p'
    ∧ (valuetype_to_chr .i32 .i32 = some 'i'
        ∧ valuetype_to_chr .i64 .i64 = some 'j'
        ∧ valuetype_to_chr .f32 .f32 = some 'f'
        ∧ valuetype_to_chr .f64 .f64 = some 'd')
    ∧ (∀ t u : ValueType, t ≠ u → ¬(t = .i32 ∧ u = .i64) →
        valuetype_to_chr t u = none) := by
  decide

theorem C1_witness : valuetype_to_chr .f32 .i64 = none :=
  C1_valuetype_tags.2.2 .f32 .i64 (by decide) (by decide)

/-- C2: per-symbol merge into the accumulating mapping — a symbol already
present with the same signature merges without changing the mapping; one
present with a different signature aborts, reporting the symbol and both
signature strings. -/
theorem C2_merge_contradiction : ∀ (acc : SigInfo) (sym s old : Str),
    (dictGet acc sym = some s → mergeSym acc sym s = Except.ok acc)
    ∧ (dictGet acc sym = some old → old ≠ s →
        mergeSym acc sym s = Except.error (sym, s, old)) := by
  intro acc sym s old
  constructor
  · intro h
    simp [mergeSym, h, dictSet_self h]
  · intro h hne
    simp [mergeSym, h, hne]

theorem C2_witness :
    mergeSym [("bar".toList, "vi".toList)] "bar".toList "vi".toList
        = Except.ok [("bar".toList, "vi".toList)]
    ∧ mergeSym [("bar".toList, "vi".toList)] "bar".toList "vj".toList
        = Except.error ("bar".toList, "vj".toList, "vi".toList) :=
  ⟨(C2_merge_contradiction [("bar".toList, "vi".toList)] "bar".toList
      "vi".toList "vi".toList).1 (by decide),
   (C2_merge_contradiction [("bar".toList, "vi".toList)] "bar".toList
      "vj".toList "vi".toList).2 (by decide) (by decide)⟩

/-- C3: a successful reconciliation yields the return tag (`v` when there is
no return value) followed by one parameter tag per parameter in declared
order, so the string length is exactly 1 + the parameter count; the
spec example reconciles to `ipi`. -/
theorem C3_signature_shape :
    (∀ (t t64 : FunctionType) (s : Str), functype_to_str t t64 = some s →
      ∃ rc ps, s = rc :: ps
        ∧ paramTags t.params t64.params = some ps
        ∧ ps.length = t.params.length
        ∧ (t.returns = [] → rc = 'v')
        ∧ s.length = 1 + t.params.length)
    ∧ functype_to_str ⟨[.i32, .i32], [.i32]⟩ ⟨[.i64, .i32], [.i32]⟩ =
        some ['i', 'p', 'i'] := by
  constructor
  · intro t t64 s h
    unfold functype_to_str at h
    by_cases hg : t.returns.length = t64.returns.length
        ∧ t.params.length = t64.params.length
    · rw [if_pos hg] at h
      cases hrt : returnTag t.returns t64.returns with
      | none => rw [hrt] at h; simp at h
      | some rc =>
        cases hpt : paramTags t.params t64.params with
        | none => rw [hrt, hpt] at h; simp at h
        | some ps =>
          rw [hrt, hpt] at h
          simp at h
          refine ⟨rc, ps, h.symm, rfl,
            paramTags_length _ _ _ hpt hg.2, ?_, ?_⟩
          · intro hnil
            rw [hnil] at hrt
            simp [returnTag] at hrt
            exact hrt.symm
          · rw [← h]
            simp [paramTags_length _ _ _ hpt hg.2]
            omega
    · rw [if_neg hg] at h
      simp at h
  · decide

theorem C3_witness :
    ∃ rc ps, ('i' :: ['p', 'i']) = rc :: ps
      ∧ paramTags [.i32, .i32] [.i64, .i32] = some ps
      ∧ ps.length = 2 :=
  match C3_signature_shape.1 ⟨[.i32, .i32], [.i32]⟩ ⟨[.i64, .i32], [.i32]⟩
      ['i', 'p', 'i'] (by decide) with
  | ⟨rc, ps, h1, h2, h3, _, _⟩ => ⟨rc, ps, h1, h2, by simpa using h3⟩

/-- C4: reconciliation of two function types fails (assertion, no string)
whenever the parameter counts differ, the return counts differ, or the
return count exceeds one; a produced string implies both arities agree and
the return arity is 0 or 1. -/
theorem C4_arity_asserts : ∀ t t64 : FunctionType,
    ((t.params.length ≠ t64.params.length ∨ t.returns.length ≠ t64.returns.length
        ∨ 2 ≤ t.returns.length) → functype_to_str t t64 = none)
    ∧ (∀ s, functype_to_str t t64 = some s →
        t.params.length = t64.params.length ∧ t.returns.length = t64.returns.length
          ∧ t.returns.length ≤ 1) := by
  intro t t64
  have hnone : 2 ≤ t.returns.length → returnTag t.returns t64.returns = none := by
    intro h2
    cases hr : t.returns with
    | nil => rw [hr] at h2; simp at h2
    | cons a rest =>
      cases rest with
      | nil => rw [hr] at h2; simp at h2
      | cons b rest2 => cases t64.returns <;> rfl
  constructor
  · intro h
    unfold functype_to_str
    by_cases hg : t.returns.length = t64.returns.length
        ∧ t.params.length = t64.params.length
    · rw [if_pos hg]
      rcases h with h | h | h
      · exact absurd hg.2 h
      · exact absurd hg.1 h
      · rw [hnone h]
    · rw [if_neg hg]
  · intro s h
    unfold functype_to_str at h
    by_cases hg : t.returns.length = t64.returns.length
        ∧ t.params.length = t64.params.length
    · refine ⟨hg.2, hg.1, ?_⟩
      by_cases h2 : 2 ≤ t.returns.length
      · rw [if_pos hg, hnone h2] at h
        simp at h
      · omega
    · rw [if_neg hg] at h; simp at h

theorem C4_witness :
    functype_to_str ⟨[], [.i32, .i32]⟩ ⟨[], [.i32, .i32]⟩ = none
    ∧ functype_to_str ⟨[.i32], []⟩ ⟨[.i32, .i32], []⟩ = none :=
  ⟨(C4_arity_asserts ⟨[], [.i32, .i32]⟩ ⟨[], [.i32, .i32]⟩).1
      (Or.inr (Or.inr (by decide))),
   (C4_arity_asserts ⟨[.i32], []⟩ ⟨[.i32, .i32], []⟩).1
      (Or.inl (by decide))⟩

/-- C8: the filter on the four-symbol example set (alternate-linkage flag
false) retains exactly `malloc`: `__stack_base` is in the reserved set,
`emscripten_glClear` matches a wrapper-family prefix, `glTexImage2DNV`
matches `gl` + a recognized extension suffix, `malloc` matches no rule. -/
theorem C8_filter_example :
    c8Input.filter (fun s => !ignore_symbol s false) = ["malloc".toList]
    ∧ reservedNames.contains "__stack_base".toList = true
    ∧ strStarts "emscripten_gl".toList "emscripten_glClear".toList = true
    ∧ (strStarts "gl".toList "glTexImage2DNV".toList = true
        ∧ glSuffixes.any (fun x => strEnds x "glTexImage2DNV".toList) = true)
    ∧ ignore_symbol "malloc".toList false = false := by
  decide

theorem foldl_append_map (f : Str → Str) : ∀ (xs : List Str) (init : List Str),
    xs.foldl (fun acc s => acc ++ [f s]) init = init ++ xs.map f := by
  intro xs
  induction xs with
  | nil => intro init; simp
  | cons x rest ih =>
    intro init
    simp only [List.foldl_cons, List.map_cons]
    rw [ih (init ++ [f x])]
    simp

/-- C10: the stub emitter produces exactly one symbol-list entry per input
symbol in input order between the fixed opener and footer; WASI symbols are
referenced as `(void*)&__wasi_<name>`, all others as `(void*)&<name>`. -/
theorem C10_stub_entries : ∀ (syms : List Str) (header : Str),
    create_c_lines syms header =
      [header, arrayOpenLine] ++ syms.map symbolEntryLine ++ [footerText]
    ∧ (create_c_lines syms header).length = syms.length + 3
    ∧ (∀ s, wasi_symbols.contains s = true →
        symbolEntryLine s = "  (void*)&__wasi_".toList ++ s ++ [','])
    ∧ (∀ s, wasi_symbols.contains s = false →
        symbolEntryLine s = "  (void*)&".toList ++ s ++ [',']) := by
  intro syms header
  have hmain : create_c_lines syms header =
      [header, arrayOpenLine] ++ syms.map symbolEntryLine ++ [footerText] := by
    unfold create_c_lines
    rw [foldl_append_map]
    try simp
  refine ⟨hmain, ?_, ?_, ?_⟩
  · rw [hmain]
    simp
    try omega
  · intro s hs
    have hmem : s ∈ wasi_symbols := by simpa using hs
    simp [symbolEntryLine, hmem]
  · intro s hs
    have hmem : s ∉ wasi_symbols := by simpa using hs
    simp [symbolEntryLine, hmem]

/-- C6 counterexample: a file nested three levels below the scan root
(`src/a/b/c.js`) is visited by neither Update nor Remove, even though it
contains a line both transforms would change — `glob('src/**/*.js')`
without `recursive=True` matches only one directory level. -/
theorem C6_counterexample :
    update_sigs c6Map c6Fs = c6Fs
    ∧ remove_sigs c6Map c6Fs = c6Fs
    ∧ update_line c6Map c6Line ≠ c6Line
    ∧ removeLines c6Map [c6Line] = [] := by
  decide

theorem mem_map_eq {α β : Type _} {g : α → β} {l : List α} {a : α} (h : a ∈ l)
    {b : β} (hb : g a = b) : b ∈ l.map g := by
  subst hb
  exact List.mem_map_of_mem g h

theorem strStarts_iff : ∀ {x y : Str}, strStarts x y = true ↔ x <+: y := by
  intro x
  induction x with
  | nil => intro y; simp [strStarts]
  | cons a as ih =>
    intro y
    cases y with
    | nil => simp [strStarts]
    | cons b bs =>
      simp [strStarts, List.cons_prefix_cons, ih, Bool.and_eq_true, beq_iff_eq]

theorem strStarts_self_append (x y : Str) : strStarts x (x ++ y) = true :=
  strStarts_iff.mpr (List.prefix_append x y)

theorem strStarts_trunc (k B u : Str) (hlen : k.length ≤ B.length) :
    strStarts k (B ++ u) = strStarts k B := by
  cases hB : strStarts k B with
  | true =>
    exact strStarts_iff.mpr ((strStarts_iff.mp hB).trans (List.prefix_append B u))
  | false =>
    cases hBu : strStarts k (B ++ u) with
    | false => rfl
    | true =>
      exfalso
      have hkB : k <+: B :=
        List.prefix_of_prefix_length_le (strStarts_iff.mp hBu)
          (List.prefix_append B u) hlen
      have h2 := strStarts_iff.mpr hkB
      rw [hB] at h2
      simp at h2

theorem strStarts_long_false (k B0 u : Str) (hk : noQuote k)
    (hlen : B0.length + 1 < k.length) :
    strStarts k (B0 ++ [qc] ++ u) = false := by
  cases h : strStarts k (B0 ++ [qc] ++ u) with
  | false => rfl
  | true =>
    exfalso
    have hpre : k <+: B0 ++ [qc] ++ u := strStarts_iff.mp h
    have h1 : (B0 ++ [qc]) <+: B0 ++ [qc] ++ u := List.prefix_append _ u
    have h2 : (B0 ++ [qc]) <+: k :=
      List.prefix_of_prefix_length_le h1 hpre (by simp; omega)
    have hq : qc ∈ k := h2.subset (by simp)
    exact hk qc hq rfl

theorem strStarts_stable (k B0 u v : Str) (hk : noQuote k) :
    strStarts k (B0 ++ [qc] ++ u) = strStarts k (B0 ++ [qc] ++ v) := by
  by_cases hlen : k.length ≤ B0.length + 1
  · rw [strStarts_trunc k (B0 ++ [qc]) u (by simpa using hlen),
        strStarts_trunc k (B0 ++ [qc]) v (by simpa using hlen)]
  · rw [strStarts_long_false k B0 u hk (by omega),
        strStarts_long_false k B0 v hk (by omega)]

theorem noQuote_append {x y : Str} : noQuote (x ++ y) ↔ noQuote x ∧ noQuote y := by
  simp [noQuote, List.mem_append, or_imp, forall_and]

theorem noQuote_drop (k : Nat) {l : Str} (h : noQuote l) : noQuote (l.drop k) :=
  fun c hc => h c (List.drop_subset k l hc)

theorem splitLastQuote_eq_none : ∀ {z : Str}, splitLastQuote z = none → noQuote z := by
  intro z
  induction z with
  | nil => intro _ c hc; simp at hc
  | cons c cs ih =>
    intro h
    simp only [splitLastQuote] at h
    cases hcs : splitLastQuote cs with
    | some p => rw [hcs] at h; simp at h
    | none =>
      rw [hcs] at h
      by_cases hc : c = qc
      · rw [if_pos hc] at h; simp at h
      · rw [if_neg hc] at h
        intro d hd
        rcases List.mem_cons.mp hd with hd0 | hd0
        · subst hd0; exact hc
        · exact ih hcs d hd0

theorem splitLastQuote_of_noQuote : ∀ {t : Str}, noQuote t → splitLastQuote t = none := by
  intro t
  induction t with
  | nil => intro _; rfl
  | cons c cs ih =>
    intro h
    have hc : c ≠ qc := h c (List.mem_cons_self c cs)
    have hcs : noQuote cs := fun d hd => h d (List.mem_cons_of_mem c hd)
    simp only [splitLastQuote]
    rw [ih hcs, if_neg hc]

theorem splitLastQuote_eq_some : ∀ {z m t : Str}, splitLastQuote z = some (m, t) →
    z = m ++ [qc] ++ t ∧ noQuote t := by
  intro z
  induction z with
  | nil => intro m t h; simp [splitLastQuote] at h
  | cons c cs ih =>
    intro m t h
    simp only [splitLastQuote] at h
    cases hcs : splitLastQuote cs with
    | some p =>
      obtain ⟨m0, t0⟩ := p
      rw [hcs] at h
      simp only [Option.some.injEq, Prod.mk.injEq] at h
      obtain ⟨hm, ht⟩ := h
      obtain ⟨hz, hq⟩ := ih hcs
      subst ht
      refine ⟨?_, hq⟩
      rw [← hm, hz]
      simp
    | none =>
      rw [hcs] at h
      by_cases hc : c = qc
      · rw [if_pos hc] at h
        simp only [Option.some.injEq, Prod.mk.injEq] at h
        obtain ⟨hm, ht⟩ := h
        subst hm
        subst ht
        exact ⟨by simp [hc], splitLastQuote_eq_none hcs⟩
      · rw [if_neg hc] at h
        simp at h

theorem splitLastQuote_append : ∀ (x : Str) {t : Str}, noQuote t →
    splitLastQuote (x ++ [qc] ++ t) = some (x, t) := by
  intro x
  induction x with
  | nil =>
    intro t ht
    show splitLastQuote (qc :: t) = some ([], t)
    simp only [splitLastQuote]
    rw [splitLastQuote_of_noQuote ht]
    simp
  | cons c cs ih =>
    intro t ht
    show splitLastQuote (c :: (cs ++ [qc] ++ t)) = some (c :: cs, t)
    simp only [splitLastQuote]
    rw [ih ht]

theorem ws_not_word {c : Char} (h : isWsChar c = true) : isWordChar c = false := by
  simp only [isWsChar, Bool.or_eq_true, decide_eq_true_eq] at h
  rcases h with ((((h | h) | h) | h) | h) | h <;> subst h <;> decide

theorem word_not_quote {c : Char} (h : isWordChar c = true) : c ≠ qc := by
  intro hc
  subst hc
  exact absurd h (by decide)

theorem and_true_left {a b : Bool} (h : (a && b) = true) : a = true := by
  cases a with
  | false => simp at h
  | true => rfl

theorem and_true_right {a b : Bool} (h : (a && b) = true) : b = true := by
  cases a with
  | false => simp at h
  | true => simpa using h

theorem strStarts_head {p : Char} {ps z : Str} (h : strStarts (p :: ps) z = true) :
    ∃ zs, z = p :: zs ∧ strStarts ps zs = true := by
  cases z with
  | nil => simp [strStarts] at h
  | cons b bs =>
    simp only [strStarts, Bool.and_eq_true, beq_iff_eq] at h
    exact ⟨bs, by rw [h.1], h.2⟩

theorem subSig_cons_pos {pat repl : Str} {prev : Option Char} {c : Char} {cs mid t : Str}
    (hb : (boundaryOk prev c && strStarts pat (c :: cs)) = true)
    (hsl : splitLastQuote ((c :: cs).drop pat.length) = some (mid, t)) :
    subSig pat repl prev (c :: cs) = repl ++ t := by
  simp only [subSig]
  rw [if_pos hb, hsl]

theorem subSig_cons_none {pat repl : Str} {prev : Option Char} {c : Char} {cs : Str}
    (hb : (boundaryOk prev c && strStarts pat (c :: cs)) = true)
    (hsl : splitLastQuote ((c :: cs).drop pat.length) = none) :
    subSig pat repl prev (c :: cs) = c :: subSig pat repl (some c) cs := by
  simp only [subSig]
  rw [if_pos hb, hsl]

theorem subSig_cons_neg {pat repl : Str} {prev : Option Char} {c : Char} {cs : Str}
    (hb : ¬(boundaryOk prev c && strStarts pat (c :: cs)) = true) :
    subSig pat repl prev (c :: cs) = c :: subSig pat repl (some c) cs := by
  simp only [subSig]
  rw [if_neg hb]

theorem subSig_no_rewrite (pat repl : Str) :
    ∀ (x : Str) (k : Nat) (prev : Option Char), k ≤ pat.length →
      noQuote (x.drop k) → subSig pat repl prev x = x := by
  intro x
  induction x with
  | nil => intro k prev _ _; rfl
  | cons c cs ih =>
    intro k prev hk hq
    have hall : noQuote ((c :: cs).drop pat.length) := by
      have h1 : ((c :: cs).drop k).drop (pat.length - k) = (c :: cs).drop pat.length := by
        rw [List.drop_drop]
        congr 1
        omega
      rw [← h1]
      exact noQuote_drop _ hq
    have hslq : splitLastQuote ((c :: cs).drop pat.length) = none :=
      splitLastQuote_of_noQuote hall
    have hrec : subSig pat repl (some c) cs = cs := by
      by_cases hk0 : k = 0
      · subst hk0
        exact ih 0 (some c) (Nat.zero_le _)
          (fun d hd => hq d (List.mem_cons_of_mem c hd))
      · apply ih (k - 1) (some c) (by omega)
        have h2 : cs.drop (k - 1) = (c :: cs).drop k := by
          cases k with
          | zero => exact absurd rfl hk0
          | succ n => simp
        rw [h2]
        exact hq
    by_cases hb : (boundaryOk prev c && strStarts pat (c :: cs)) = true
    · rw [subSig_cons_none hb hslq, hrec]
    · rw [subSig_cons_neg hb, hrec]

theorem subSig_char (pat repl : Str) :
    ∀ (prev : Option Char) (l : Str),
      subSig pat repl prev l = l
      ∨ ∃ a mid t, l = a ++ pat ++ mid ++ [qc] ++ t
          ∧ subSig pat repl prev l = a ++ repl ++ t ∧ noQuote t := by
  intro prev l
  induction l generalizing prev with
  | nil => left; rfl
  | cons c cs ih =>
    by_cases hb : (boundaryOk prev c && strStarts pat (c :: cs)) = true
    · cases hsl : splitLastQuote ((c :: cs).drop pat.length) with
      | none =>
        rcases ih (some c) with heq | ⟨a, mid, t, hcs, hrw, ht⟩
        · left; rw [subSig_cons_none hb hsl, heq]
        · right
          refine ⟨c :: a, mid, t, ?_, ?_, ht⟩
          · rw [show (c :: a) ++ pat ++ mid ++ [qc] ++ t
                = c :: (a ++ pat ++ mid ++ [qc] ++ t) by simp, ← hcs]
          · rw [subSig_cons_none hb hsl, hrw]
            simp
      | some p =>
        obtain ⟨mid, t⟩ := p
        right
        obtain ⟨hz, hqt⟩ := splitLastQuote_eq_some hsl
        have hpre : strStarts pat (c :: cs) = true := and_true_right hb
        have hdec : c :: cs = pat ++ (c :: cs).drop pat.length := by
          obtain ⟨r, hr⟩ := strStarts_iff.mp hpre
          rw [← hr, List.drop_left]
        refine ⟨[], mid, t, ?_, ?_, hqt⟩
        · rw [hdec, hz]
          simp
        · rw [subSig_cons_pos hb hsl]
          simp
    · rcases ih (some c) with heq | ⟨a, mid, t, hcs, hrw, ht⟩
      · left; rw [subSig_cons_neg hb, heq]
      · right
        refine ⟨c :: a, mid, t, ?_, ?_, ht⟩
        · rw [show (c :: a) ++ pat ++ mid ++ [qc] ++ t
              = c :: (a ++ pat ++ mid ++ [qc] ++ t) by simp, ← hcs]
        · rw [subSig_cons_neg hb, hrw]
          simp

theorem subSig_idem (pfx sig : Str) :
    ∀ (prev : Option Char) (l : Str),
      subSig (pfx ++ [qc]) (pfx ++ [qc] ++ sig ++ [qc]) prev
          (subSig (pfx ++ [qc]) (pfx ++ [qc] ++ sig ++ [qc]) prev l)
        = subSig (pfx ++ [qc]) (pfx ++ [qc] ++ sig ++ [qc]) prev l := by
  intro prev l
  induction l generalizing prev with
  | nil => rfl
  | cons c cs ih =>
    by_cases hb : (boundaryOk prev c && strStarts (pfx ++ [qc]) (c :: cs)) = true
    · cases hsl : splitLastQuote ((c :: cs).drop (pfx ++ [qc]).length) with
      | none =>
        have hqd : noQuote ((c :: cs).drop (pfx ++ [qc]).length) :=
          splitLastQuote_eq_none hsl
        have hcs : subSig (pfx ++ [qc]) (pfx ++ [qc] ++ sig ++ [qc]) (some c) cs = cs := by
          apply subSig_no_rewrite _ _ cs ((pfx ++ [qc]).length - 1) (some c) (by omega)
          have hl : (pfx ++ [qc]).length = pfx.length + 1 := by simp
          rw [hl]
          have h2 : cs.drop (pfx.length + 1 - 1) = (c :: cs).drop (pfx.length + 1) := by simp
          rw [h2, ← hl]
          exact hqd
        have h1 : subSig (pfx ++ [qc]) (pfx ++ [qc] ++ sig ++ [qc]) prev (c :: cs) = c :: cs := by
          rw [subSig_cons_none hb hsl, hcs]
        rw [h1]
        exact h1
      | some p =>
        obtain ⟨mid, t⟩ := p
        obtain ⟨hz, hqt⟩ := splitLastQuote_eq_some hsl
        have h1 : subSig (pfx ++ [qc]) (pfx ++ [qc] ++ sig ++ [qc]) prev (c :: cs)
            = (pfx ++ [qc] ++ sig ++ [qc]) ++ t := subSig_cons_pos hb hsl
        rw [h1]
        have hpre : strStarts (pfx ++ [qc]) (c :: cs) = true := and_true_right hb
        have hbnd : boundaryOk prev c = true := and_true_left hb
        have hpat : ∃ ps, pfx ++ [qc] = c :: ps := by
          cases hp : pfx ++ [qc] with
          | nil => simp at hp
          | cons p0 ps =>
            rw [hp] at hpre
            obtain ⟨zs, hz2, _⟩ := strStarts_head hpre
            injection hz2 with hc0 _
            subst hc0
            exact ⟨ps, rfl⟩
        obtain ⟨ps, hps⟩ := hpat
        have hform : (pfx ++ [qc] ++ sig ++ [qc]) ++ t = c :: (ps ++ sig ++ [qc] ++ t) := by
          rw [show pfx ++ [qc] ++ sig ++ [qc] ++ t = (pfx ++ [qc]) ++ (sig ++ [qc] ++ t) by simp,
              hps]
          simp
        rw [hform]
        have hshape : c :: (ps ++ sig ++ [qc] ++ t) = (pfx ++ [qc]) ++ (sig ++ [qc] ++ t) := by
          rw [hps]
          simp
        have hb2 : (boundaryOk prev c
            && strStarts (pfx ++ [qc]) (c :: (ps ++ sig ++ [qc] ++ t))) = true := by
          rw [hbnd, hshape]
          simp only [Bool.true_and]
          exact strStarts_self_append _ _
        have hsl2 : splitLastQuote ((c :: (ps ++ sig ++ [qc] ++ t)).drop (pfx ++ [qc]).length)
            = some (sig, t) := by
          rw [hshape, List.drop_left]
          exact splitLastQuote_append sig hqt
        rw [subSig_cons_pos hb2 hsl2]
        exact hform
    · have h1 : subSig (pfx ++ [qc]) (pfx ++ [qc] ++ sig ++ [qc]) prev (c :: cs)
          = c :: subSig (pfx ++ [qc]) (pfx ++ [qc] ++ sig ++ [qc]) (some c) cs :=
        subSig_cons_neg hb
      rw [h1]
      by_cases hbnd : boundaryOk prev c = true
      · have hnp : strStarts (pfx ++ [qc]) (c :: cs) = false := by
          cases h : strStarts (pfx ++ [qc]) (c :: cs) with
          | false => rfl
          | true => exact absurd (show (boundaryOk prev c
              && strStarts (pfx ++ [qc]) (c :: cs)) = true by rw [hbnd, h]; rfl) hb
        rcases subSig_char (pfx ++ [qc]) (pfx ++ [qc] ++ sig ++ [qc]) (some c) cs with
          heq | ⟨a, mid, t, hcs, hrw, ht⟩
        · rw [heq, h1, heq]
        · rw [hrw]
          have hlen : (pfx ++ [qc]).length ≤ ((c :: a) ++ (pfx ++ [qc])).length := by
            simp
            omega
          have e1 : c :: (a ++ (pfx ++ [qc] ++ sig ++ [qc]) ++ t)
              = ((c :: a) ++ (pfx ++ [qc])) ++ (sig ++ [qc] ++ t) := by simp
          have e2 : c :: cs = ((c :: a) ++ (pfx ++ [qc])) ++ (mid ++ [qc] ++ t) := by
            rw [hcs]
            simp
          have hstab : strStarts (pfx ++ [qc])
              (c :: (a ++ (pfx ++ [qc] ++ sig ++ [qc]) ++ t)) = false := by
            rw [e1, strStarts_trunc _ _ _ hlen, ← strStarts_trunc _ _ (mid ++ [qc] ++ t) hlen,
                ← e2]
            exact hnp
          have hb2 : ¬(boundaryOk prev c && strStarts (pfx ++ [qc])
              (c :: (a ++ (pfx ++ [qc] ++ sig ++ [qc]) ++ t))) = true := by
            rw [hstab]
            simp
          rw [subSig_cons_neg hb2]
          have hih := ih (some c)
          rw [hrw] at hih
          rw [hih]
      · have hb2 : ¬(boundaryOk prev c && strStarts (pfx ++ [qc])
            (c :: subSig (pfx ++ [qc]) (pfx ++ [qc] ++ sig ++ [qc]) (some c) cs)) = true := by
          intro hcontra
          exact hbnd (and_true_left hcontra)
        rw [subSig_cons_neg hb2]
        rw [ih (some c)]

theorem dropWhile_append_nonWs : ∀ (a : Str) (y : Str), y ≠ [] → isWsChar y.headI = false →
    (a ++ y).dropWhile isWsChar = a.dropWhile isWsChar ++ y := by
  intro a
  induction a with
  | nil =>
    intro y hy hh
    cases y with
    | nil => exact absurd rfl hy
    | cons c cs =>
      simp only [List.headI] at hh
      simp [List.dropWhile_cons, hh]
  | cons c as ih =>
    intro y hy hh
    simp only [List.cons_append, List.dropWhile_cons]
    cases hc : isWsChar c with
    | true => simp [ih y hy hh]
    | false => simp

theorem dropTrail_append_quote (Z t : Str) :
    dropTrail (Z ++ [qc] ++ t) = Z ++ [qc] ++ dropTrail t := by
  unfold dropTrail
  have h1 : (Z ++ [qc] ++ t).reverse = t.reverse ++ ([qc] ++ Z.reverse) := by simp
  rw [h1, dropWhile_append_nonWs t.reverse ([qc] ++ Z.reverse) (by simp)
    (show isWsChar qc = false by decide)]
  simp

theorem pyStrip_decomp (a pat mid t : Str) (hp : pat ≠ []) (hh : isWsChar pat.headI = false) :
    pyStrip (a ++ pat ++ mid ++ [qc] ++ t)
      = a.dropWhile isWsChar ++ pat ++ mid ++ [qc] ++ dropTrail t := by
  unfold pyStrip
  have h1 : (a ++ pat ++ mid ++ [qc] ++ t).dropWhile isWsChar
      = a.dropWhile isWsChar ++ (pat ++ (mid ++ ([qc] ++ t))) := by
    have e : a ++ pat ++ mid ++ [qc] ++ t = a ++ (pat ++ (mid ++ ([qc] ++ t))) := by simp
    rw [e]
    apply dropWhile_append_nonWs a (pat ++ (mid ++ ([qc] ++ t)))
    · cases pat with
      | nil => exact absurd rfl hp
      | cons p ps => simp
    · cases pat with
      | nil => exact absurd rfl hp
      | cons p ps => simpa using hh
  rw [h1]
  have h2 : a.dropWhile isWsChar ++ (pat ++ (mid ++ ([qc] ++ t)))
      = (a.dropWhile isWsChar ++ pat ++ mid) ++ [qc] ++ t := by simp
  rw [h2, dropTrail_append_quote]
  try simp

theorem occursIn_head {n z : Str} (h : strStarts n z = true) : occursIn n z = true := by
  cases z with
  | nil =>
    cases n with
    | nil => rfl
    | cons a as => simp [strStarts] at h
  | cons c cs =>
    simp only [occursIn]
    rw [h]
    simp

theorem occursIn_append_self (n : Str) : ∀ (a b : Str), occursIn n (a ++ (n ++ b)) = true := by
  intro a
  induction a with
  | nil =>
    intro b
    exact occursIn_head (strStarts_self_append n b)
  | cons x xs ih =>
    intro b
    show occursIn n (x :: (xs ++ (n ++ b))) = true
    simp only [occursIn]
    rw [ih b]
    simp

theorem firstMatch_mem : ∀ {m : SigInfo} {s sym sig : Str},
    firstMatch m s = some (sym, sig) →
    (sym, sig) ∈ m ∧ strStarts (sym ++ sigMarker) s = true := by
  intro m
  induction m with
  | nil => intro s sym sig h; simp [firstMatch] at h
  | cons p rest ih =>
    intro s sym sig h
    obtain ⟨k, v⟩ := p
    simp only [firstMatch] at h
    by_cases hc : strStarts (k ++ sigMarker) s = true
    · rw [if_pos hc] at h
      simp only [Option.some.injEq, Prod.mk.injEq] at h
      obtain ⟨h1, h2⟩ := h
      subst h1
      subst h2
      exact ⟨List.mem_cons_self _ _, hc⟩
    · rw [if_neg hc] at h
      have := ih h
      exact ⟨List.mem_cons_of_mem _ this.1, this.2⟩

theorem firstMatch_congr : ∀ (m : SigInfo) (x y : Str),
    (∀ p ∈ m, strStarts (p.1 ++ sigMarker) x = strStarts (p.1 ++ sigMarker) y) →
    firstMatch m x = firstMatch m y := by
  intro m
  induction m with
  | nil => intro x y _; rfl
  | cons p rest ih =>
    intro x y h
    obtain ⟨k, v⟩ := p
    have hp : strStarts (k ++ sigMarker) x = strStarts (k ++ sigMarker) y :=
      h (k, v) (List.mem_cons_self _ _)
    simp only [firstMatch]
    rw [hp, ih x y (fun q hq => h q (List.mem_cons_of_mem _ hq))]

theorem firstMatch_none : ∀ {m : SigInfo} {s : Str},
    (∀ p ∈ m, strStarts (p.1 ++ sigMarker) s = false) → firstMatch m s = none := by
  intro m
  induction m with
  | nil => intro s _; rfl
  | cons p rest ih =>
    intro s h
    obtain ⟨k, v⟩ := p
    have hp : strStarts (k ++ sigMarker) s = false := h (k, v) (List.mem_cons_self _ _)
    simp only [firstMatch]
    rw [hp]
    simp only [Bool.false_eq_true, if_false]
    exact ih (fun q hq => h q (List.mem_cons_of_mem _ hq))

theorem subSig_indent (pat repl : Str) (hp : pat ≠ []) (hw : isWordChar pat.headI = true) :
    ∀ (indent : Str), (∀ c ∈ indent, isWsChar c = true) →
    ∀ (prev : Option Char), (∀ q0, prev = some q0 → isWordChar q0 = false) →
    ∀ (x mid t : Str), strStarts pat x = true →
      splitLastQuote (x.drop pat.length) = some (mid, t) →
      subSig pat repl prev (indent ++ x) = indent ++ (repl ++ t) := by
  intro indent
  induction indent with
  | nil =>
    intro _ prev hprev x mid t hpre hslq
    rcases hpat : pat with _ | ⟨p0, ps⟩
    · exact absurd hpat hp
    subst hpat
    simp only [List.headI] at hw
    obtain ⟨zs, hxz, _⟩ := strStarts_head hpre
    subst hxz
    have hbnd : boundaryOk prev p0 = true := by
      cases prev with
      | none =>
        show (false != isWordChar p0) = true
        rw [hw]
        rfl
      | some q0 =>
        show (isWordChar q0 != isWordChar p0) = true
        rw [hprev q0 rfl, hw]
        rfl
    have hb : (boundaryOk prev p0 && strStarts (p0 :: ps) (p0 :: zs)) = true := by
      rw [hbnd, hpre]
      rfl
    rw [List.nil_append, subSig_cons_pos hb hslq, List.nil_append]
  | cons i irest ih =>
    intro hind prev hprev x mid t hpre hslq
    have hi : isWsChar i = true := hind i (List.mem_cons_self _ _)
    have hnp : strStarts pat (i :: (irest ++ x)) = false := by
      rcases hpat : pat with _ | ⟨p0, ps⟩
      · exact absurd hpat hp
      subst hpat
      simp only [List.headI] at hw
      simp only [strStarts]
      have hne : (p0 == i) = false := by
        apply beq_eq_false_iff_ne.mpr
        intro he
        subst he
        have := ws_not_word hi
        rw [hw] at this
        simp at this
      rw [hne]
      rfl
    have hb : ¬(boundaryOk prev i && strStarts pat (i :: (irest ++ x))) = true := by
      rw [hnp]
      simp
    rw [List.cons_append, subSig_cons_neg hb]
    rw [ih (fun c hc => hind c (List.mem_cons_of_mem _ hc)) (some i)
        (fun q0 hq0 => by injection hq0 with h0; rw [← h0]; exact ws_not_word hi)
        x mid t hpre hslq]
    rfl

theorem sigMarker_split : sigMarker = usMarker ++ [':'] := by decide

theorem sigPat_split (sym : Str) : sigPat sym = (sym ++ sigMarker ++ [' ']) ++ [qc] := by
  simp [sigPat]

theorem sigPat_ne_nil (sym : Str) : sigPat sym ≠ [] := by
  simp [sigPat]

theorem noQuote_sigMarker : noQuote sigMarker := by decide

theorem dropTrail_prefix (x : Str) : dropTrail x <+: x := by
  unfold dropTrail
  obtain ⟨u, hu⟩ : x.reverse.dropWhile isWsChar <:+ x.reverse := List.dropWhile_suffix _
  refine ⟨u.reverse, ?_⟩
  rw [← List.reverse_append, hu, List.reverse_reverse]

theorem dropWhile_head_false : ∀ {x : Str} {c : Char} {y : Str},
    x.dropWhile isWsChar = c :: y → isWsChar c = false := by
  intro x
  induction x with
  | nil => intro c y h; simp at h
  | cons d ds ih =>
    intro c y h
    rw [List.dropWhile_cons] at h
    by_cases hd : isWsChar d = true
    · rw [if_pos hd] at h
      exact ih h
    · rw [if_neg hd] at h
      injection h with h1 _
      rw [← h1]
      revert hd
      cases isWsChar d <;> simp

theorem pyStrip_head {l : Str} {c : Char} {y : Str} (h : pyStrip l = c :: y) :
    isWsChar c = false := by
  have hp : pyStrip l <+: l.dropWhile isWsChar := dropTrail_prefix _
  rw [h] at hp
  obtain ⟨r, hr⟩ := hp
  exact dropWhile_head_false hr.symm

theorem update_line_idem (m : SigInfo) (hm : ∀ p ∈ m, noQuote p.1) (l : Str) :
    update_line m (update_line m l) = update_line m l := by
  by_cases h1 : occursIn usMarker l = true
  · rcases hfm : firstMatch m (pyStrip l) with _ | ⟨sym, sig⟩
    · have hl : update_line m l = l := by
        unfold update_line
        rw [if_pos h1, hfm]
      rw [hl, hl]
    · have hl : update_line m l
          = subSig (sigPat sym) (sigPat sym ++ sig ++ [qc]) none l := by
        unfold update_line
        rw [if_pos h1, hfm]
      obtain ⟨hmem, hsymstart⟩ := firstMatch_mem hfm
      have hsymq : noQuote sym := hm _ hmem
      rcases subSig_char (sigPat sym) (sigPat sym ++ sig ++ [qc]) none l with
        heq | ⟨a, mid, t, hld, hrw, ht⟩
      · have hull : update_line m l = l := by rw [hl, heq]
        rw [hull, hull]
      · have hull : update_line m l = a ++ (sigPat sym ++ sig ++ [qc]) ++ t := by
          rw [hl, hrw]
        rw [hull]
        have hpne : sigPat sym ≠ [] := sigPat_ne_nil sym
        have hhead : isWsChar (sigPat sym).headI = false := by
          cases hsym : sym with
          | nil => decide
          | cons s0 srest =>
            rw [hsym] at hsymstart
            have h0 : strStarts (s0 :: (srest ++ sigMarker)) (pyStrip l) = true := hsymstart
            obtain ⟨zs, hz, _⟩ := strStarts_head h0
            have hws : isWsChar s0 = false := pyStrip_head hz
            exact hws
        have hocc : occursIn usMarker (a ++ (sigPat sym ++ sig ++ [qc]) ++ t) = true := by
          have e : a ++ (sigPat sym ++ sig ++ [qc]) ++ t
              = (a ++ sym) ++ (usMarker ++ ([':', ' ', qc] ++ sig ++ [qc] ++ t)) := by
            simp [sigPat, sigMarker_split]
          rw [e]
          exact occursIn_append_self usMarker (a ++ sym) _
        have hsl : pyStrip l
            = a.dropWhile isWsChar ++ sigPat sym ++ mid ++ [qc] ++ dropTrail t := by
          rw [hld]
          exact pyStrip_decomp a (sigPat sym) mid t hpne hhead
        have hsr : pyStrip (a ++ (sigPat sym ++ sig ++ [qc]) ++ t)
            = a.dropWhile isWsChar ++ sigPat sym ++ sig ++ [qc] ++ dropTrail t := by
          have e : a ++ (sigPat sym ++ sig ++ [qc]) ++ t
              = a ++ sigPat sym ++ sig ++ [qc] ++ t := by
            simp
          rw [e]
          exact pyStrip_decomp a (sigPat sym) sig t hpne hhead
        have hfm2 : firstMatch m (pyStrip (a ++ (sigPat sym ++ sig ++ [qc]) ++ t))
            = some (sym, sig) := by
          rw [← hfm]
          apply firstMatch_congr
          intro p hp
          rw [hsl, hsr]
          have e1 : a.dropWhile isWsChar ++ sigPat sym ++ sig ++ [qc] ++ dropTrail t
              = (a.dropWhile isWsChar ++ (sym ++ sigMarker ++ [' '])) ++ [qc]
                ++ (sig ++ [qc] ++ dropTrail t) := by
            simp [sigPat]
          have e2 : a.dropWhile isWsChar ++ sigPat sym ++ mid ++ [qc] ++ dropTrail t
              = (a.dropWhile isWsChar ++ (sym ++ sigMarker ++ [' '])) ++ [qc]
                ++ (mid ++ [qc] ++ dropTrail t) := by
            simp [sigPat]
          rw [e1, e2]
          apply strStarts_stable
          exact noQuote_append.mpr ⟨hm p hp, noQuote_sigMarker⟩
        have hidem := subSig_idem (sym ++ sigMarker ++ [' ']) sig none l
        rw [← sigPat_split sym] at hidem
        unfold update_line
        rw [if_pos hocc, hfm2, ← hrw]
        exact hidem
  · have hl : update_line m l = l := by
      unfold update_line
      rw [if_neg h1]
    rw [hl, hl]

theorem filter_idem {α : Type _} (f : α → Bool) : ∀ (l : List α),
    (l.filter f).filter f = l.filter f := by
  intro l
  induction l with
  | nil => rfl
  | cons a rest ih =>
    by_cases h : f a = true
    · simp [List.filter_cons, h, ih]
    · have h2 : f a = false := by revert h; cases f a <;> simp
      simp [List.filter_cons, h2, ih]

theorem removeLines_idem (m : SigInfo) (content : List Str) :
    removeLines m (removeLines m content) = removeLines m content :=
  filter_idem _ content

theorem update_sigs_idem (m : SigInfo) (hm : ∀ p ∈ m, noQuote p.1)
    (fs : List SrcFile) : update_sigs m (update_sigs m fs) = update_sigs m fs := by
  have hmap : ∀ c : List Str,
      (c.map (update_line m)).map (update_line m) = c.map (update_line m) := by
    intro c
    rw [List.map_map]
    apply List.map_congr_left
    intro l _
    simp only [Function.comp_apply]
    exact update_line_idem m hm l
  unfold update_sigs
  rw [List.map_map]
  apply List.map_congr_left
  intro f _
  simp only [Function.comp_apply]
  by_cases hg : matchesGlob f.path = true
  · simp [hg, hmap]
  · simp [hg]

theorem remove_sigs_idem (m : SigInfo) (fs : List SrcFile) :
    remove_sigs m (remove_sigs m fs) = remove_sigs m fs := by
  unfold remove_sigs
  rw [List.map_map]
  apply List.map_congr_left
  intro f _
  simp only [Function.comp_apply]
  by_cases hg : (matchesGlob f.path && pathBase f.path != libsigsName) = true
  · simp [hg, removeLines_idem]
  · simp [hg]

/-- C6 (amended): Update and Remove operate on exactly the `.js` files one
or two levels below `src` (the non-recursive globs `src/*.js` and
`src/**/*.js`, where `**` matches a single level); any file whose path does
not match — in particular every file nested deeper — passes through both
operations untouched, and matched files are transformed per line (Remove
excepting `libsigs.js`). -/
theorem C6_amended : ∀ (m : SigInfo) (fs : List SrcFile) (f : SrcFile), f ∈ fs →
    (matchesGlob f.path = true → f.path.length = 2 ∨ f.path.length = 3)
    ∧ (matchesGlob f.path = false → f ∈ update_sigs m fs ∧ f ∈ remove_sigs m fs)
    ∧ (matchesGlob f.path = true →
        (⟨f.path, f.content.map (update_line m)⟩ : SrcFile) ∈ update_sigs m fs
        ∧ (pathBase f.path ≠ libsigsName →
            (⟨f.path, removeLines m f.content⟩ : SrcFile) ∈ remove_sigs m fs)) := by
  intro m fs f hf
  refine ⟨?_, ?_, ?_⟩
  · intro hg
    rcases hp : f.path with _ | ⟨a, rest1⟩
    · rw [hp] at hg; simp [matchesGlob] at hg
    · rcases rest1 with _ | ⟨b, rest2⟩
      · rw [hp] at hg; simp [matchesGlob] at hg
      · rcases rest2 with _ | ⟨c, rest3⟩
        · left; simp [hp]
        · rcases rest3 with _ | ⟨d, rest4⟩
          · right; simp [hp]
          · rw [hp] at hg; simp [matchesGlob] at hg
  · intro hg
    unfold update_sigs remove_sigs
    exact ⟨mem_map_eq hf (by simp [hg]), mem_map_eq hf (by simp [hg])⟩
  · intro hg
    unfold update_sigs remove_sigs
    refine ⟨mem_map_eq hf (by simp [hg]), fun hbase => mem_map_eq hf ?_⟩
    simp [hg, hbase]

theorem C6_witness :
    c6File2 ∈ update_sigs c6Map [c6File2] ∧ c6File2 ∈ remove_sigs c6Map [c6File2] :=
  (C6_amended c6Map [c6File2] c6File2 (by decide)).2.1 (by decide)

/-- C7 counterexample: `__cxa_find_matching_catch_2` is dropped by the
filter even with the alternate-linkage flag false (Python binds `and`
tighter than `or`, so the prefix rule is unconditional), contradicting the
claim that it is retained. -/
theorem C7_counterexample :
    ignore_symbol "__cxa_find_matching_catch_2".toList false = true := by
  decide

/-- C7 (amended): the alternate-linkage-only part of the last filter rule
is the exception name `__asctime_r` alone (retained with the flag false,
dropped with it true); every name with the unwinding-internal prefix
`__cxa_find_matching_catch` is dropped regardless of the flag. -/
theorem C7_amended :
    ignore_symbol "__asctime_r".toList false = false
    ∧ ignore_symbol "__asctime_r".toList true = true
    ∧ (∀ (s : Str) (b : Bool), "__cxa_find_matching_catch".toList <+: s →
        ignore_symbol s b = true) := by
  refine ⟨by decide, by decide, ?_⟩
  intro s b h
  obtain ⟨t, rfl⟩ := h
  cases b <;> rfl

theorem C7_witness :
    ignore_symbol ("__cxa_find_matching_catch".toList ++ "_17".toList) false = true :=
  C7_amended.2.2 ("__cxa_find_matching_catch".toList ++ "_17".toList) false
    ⟨"_17".toList, rfl⟩

theorem C10_witness :
    symbolEntryLine "fd_write".toList = "  (void*)&__wasi_".toList ++ "fd_write".toList ++ [',']
    ∧ symbolEntryLine "malloc".toList = "  (void*)&".toList ++ "malloc".toList ++ [','] :=
  ⟨(C10_stub_entries [] []).2.2.1 "fd_write".toList (by decide),
   (C10_stub_entries [] []).2.2.2 "malloc".toList (by decide)⟩

/-- C5 counterexample: on the line `  foo__sig: 'ii', // don't edit` with
mapping `{foo: iij}` the code yields `  foo__sig: 'iij't edit` — the greedy
`.*'` consumes through the apostrophe inside the trailing comment — whereas
the claim predicts that everything outside the quoted signature is
preserved verbatim. -/
theorem C5_counterexample :
    update_line c5Map c5Line = c5CodeOut ∧ c5CodeOut ≠ c5SpecOut := by
  decide

/-- C5 (amended): the Update per-line transform replaces the span from
`<symbol>__sig: '` through the LAST single quote on the line with
`<symbol>__sig: '<sig>'`; when no single quote occurs after the signature's
closing quote (`rest` quote-free below) this changes exactly the quoted
signature and preserves indentation and everything after the closing quote
verbatim — in particular on the spec's example line; a line whose stripped
form starts with no mapped symbol's `sym__sig:` is returned unchanged. -/
theorem C5_amended :
    (∀ (m : SigInfo) (l : Str),
      (∀ p ∈ m, strStarts (p.1 ++ sigMarker) (pyStrip l) = false) →
      update_line m l = l)
    ∧ (∀ (m : SigInfo) (indent sym old sig rest : Str),
        (∀ c ∈ indent, isWsChar c = true) →
        isWordChar (sigPat sym).headI = true →
        noQuote rest →
        firstMatch m (pyStrip (indent ++ sigPat sym ++ old ++ [qc] ++ rest))
          = some (sym, sig) →
        update_line m (indent ++ sigPat sym ++ old ++ [qc] ++ rest)
          = indent ++ sigPat sym ++ sig ++ [qc] ++ rest)
    ∧ update_line c5Map c5ExLine = c5ExOut := by
  refine ⟨?_, ?_, by decide⟩
  · intro m l h
    unfold update_line
    by_cases h1 : occursIn usMarker l = true
    · rw [if_pos h1, firstMatch_none h]
    · rw [if_neg h1]
  · intro m indent sym old sig rest hind hw hq hfm
    unfold update_line
    have h1 : occursIn usMarker (indent ++ sigPat sym ++ old ++ [qc] ++ rest) = true := by
      have e : indent ++ sigPat sym ++ old ++ [qc] ++ rest
          = (indent ++ sym) ++ (usMarker ++ ([':', ' ', qc] ++ old ++ [qc] ++ rest)) := by
        simp [sigPat, sigMarker_split]
      rw [e]
      exact occursIn_append_self usMarker (indent ++ sym) _
    rw [if_pos h1, hfm]
    have e2 : indent ++ sigPat sym ++ old ++ [qc] ++ rest
        = indent ++ (sigPat sym ++ (old ++ [qc] ++ rest)) := by
      simp
    rw [e2]
    show subSig (sigPat sym) (sigPat sym ++ sig ++ [qc]) none
        (indent ++ (sigPat sym ++ (old ++ [qc] ++ rest)))
      = indent ++ sigPat sym ++ sig ++ [qc] ++ rest
    rw [subSig_indent (sigPat sym) (sigPat sym ++ sig ++ [qc]) (sigPat_ne_nil sym) hw
        indent hind none (fun q0 hq0 => by simp at hq0)
        (sigPat sym ++ (old ++ [qc] ++ rest)) old rest
        (strStarts_self_append _ _)
        (by rw [List.drop_left]; exact splitLastQuote_append old hq)]
    simp

theorem C5_witness :
    update_line c5Map
        ("  ".toList ++ sigPat "foo".toList ++ "ii".toList ++ [qc] ++ ",  // comment".toList)
      = "  ".toList ++ sigPat "foo".toList ++ "iij".toList ++ [qc] ++ ",  // comment".toList :=
  C5_amended.2.1 c5Map "  ".toList "foo".toList "ii".toList "iij".toList
    ",  // comment".toList (by decide) (by decide) (by decide) (by decide)

/-- C9 counterexample: with the mapping `{"a__sig: 'z": "Q", "a": "z__sig: 'w"}`
and a tree holding the single line `a__sig: 'x'` in `src/a.js`, a second
Update pass changes the file again (the first pass rewrites the line to
`a__sig: 'z__sig: 'w'`, which the second pass matches against the other
mapped symbol), so Update is not idempotent for every SignatureMapping. -/
theorem C9_counterexample :
    update_sigs c9Map (update_sigs c9Map c9Fs) ≠ update_sigs c9Map c9Fs := by
  decide

/-- C9 (amended): Remove is idempotent for every source tree state and
every SignatureMapping; Update is idempotent provided the mapping is
well-formed — every symbol consists of word characters (letters, digits,
underscore; in particular no single quote) and every signature value is a
tag string over `vijfdp`. -/
theorem C9_amended : ∀ (m : SigInfo) (fs : List SrcFile),
    ((∀ p ∈ m, (∀ c ∈ p.1, isWordChar c = true) ∧ (∀ c ∈ p.2, c ∈ tagChars)) →
      update_sigs m (update_sigs m fs) = update_sigs m fs)
    ∧ remove_sigs m (remove_sigs m fs) = remove_sigs m fs := by
  intro m fs
  constructor
  · intro hm
    apply update_sigs_idem
    intro p hp c hc
    exact word_not_quote ((hm p hp).1 c hc)
  · exact remove_sigs_idem m fs

theorem C9_witness :
    update_sigs c9GoodMap (update_sigs c9GoodMap c9Fs) = update_sigs c9GoodMap c9Fs
    ∧ remove_sigs c9GoodMap (remove_sigs c9GoodMap c9Fs) = remove_sigs c9GoodMap c9Fs :=
  ⟨(C9_amended c9GoodMap c9Fs).1 (by decide), (C9_amended c9GoodMap c9Fs).2⟩

end GenSig
